import Mathlib

/-!
# Verification of `makefont.py` (EGA 8x14 bitmap-font outliner)

This file gives a shallow embedding of the core of `makefont.py` and proves
(or refutes) the specified properties of it.

## Modelling notes

* Python `bytes` data is a `List ℕ`; Python integers are `ℤ`; a failed
  `assert` or an uncaught `IndexError` is modelled by returning `none`.

* Every coordinate produced by the pipeline is an integer multiple of 1/4
  (`OVERLAP = 0.25` is the only non-integer offset).  The embedding therefore
  works on an integer grid of *quarter-pixel* cells: one pixel is a 4x4 block
  of cells, and the `OVERLAP` constant becomes `1`.

* A shapely polygon (or multipolygon part) is modelled by its covered area:
  the finite set of quarter-cells it consists of (`Region`).  The shapely
  predicates are then exact for such regions:
  - `union` is set union; the result is a `Polygon` iff the union is
    4-connected (OGC polygons must have connected interior), and a
    `MultiPolygon` of the 4-connected components otherwise;
  - `touches A B` iff the cell sets are disjoint but some cells are
    edge- or corner-adjacent (closures meet, interiors do not);
  - `A.contains B` iff `B` is nonempty and `B`'s cells are a subset of
    `A`'s cells;
  - a hole (interior ring) is a bounded 4-connected component of the
    complement.

* The one part of the behaviour that is owned by the GEOS library rather
  than by `makefont.py` is the exact vertex ring `polygon.boundary.coords`
  that `_overlap_touching` iterates over.  The embedding enumerates the unit
  boundary edges of the region instead, oriented the way the extrusion rules
  of `_find_overlap_box` expect (so that an extrusion points out of the
  polygon, which is what the ring orientation produced by GEOS gives the
  source code).  All properties proved about the repair stage are stated for
  this boundary enumeration.
-/

namespace Makefont

/-- `WIDTH = 8`: all characters are 8 pixels wide. -/
def WIDTH : ℕ := 8

/-- `LAST_X = WIDTH - 1`. -/
def LAST_X : ℤ := 7

/-- `Charset`: the raw charset bytes (one row per byte) plus the configured
character height, as stored by `Charset.__init__`. -/
structure Charset where
  data : List ℕ
  character_height : ℕ
deriving DecidableEq

/-- `Charset.__len__`: `len(self.data) // self.character_height`. -/
def Charset.numChars (cs : Charset) : ℕ :=
  cs.data.length / cs.character_height

/-- A `Character` is a view: a reference to the charset plus an index
(`Character.__init__` stores exactly these two fields). -/
structure CharacterView where
  charset : Charset
  character : ℤ
deriving DecidableEq

/-- Python sequence indexing on `bytes`: a negative index wraps once from the
end; any index that is still out of range raises `IndexError` (`none`). -/
def pyBytesGet (l : List ℕ) (i : ℤ) : Option ℕ :=
  if 0 ≤ i ∧ i < (l.length : ℤ) then l.get? i.toNat
  else if -(l.length : ℤ) ≤ i ∧ i < 0 then l.get? ((l.length : ℤ) + i).toNat
  else none

/-- `Charset.__getitem__`: raises `IndexError` (`none`) for `character < 0`
or `character >= len(self)`, otherwise returns `Character(self, character)`. -/
def Charset.getitem (cs : Charset) (character : ℤ) : Option CharacterView :=
  if character < 0 ∨ (cs.numChars : ℤ) ≤ character then none
  else some ⟨cs, character⟩

/-- `Charset.pixel`: asserts `0 <= x <= LAST_X`, reads
`self.data[character * self.character_height + y]` and extracts bit
`(byte >> (LAST_X - x)) & 1`.  Note that `y` (and `character`) are *not*
bounds-checked: the byte index is handed to Python list indexing as is. -/
def Charset.pixel (cs : Charset) (character x y : ℤ) : Option ℕ :=
  if 0 ≤ x ∧ x ≤ LAST_X then
    (pyBytesGet cs.data (character * (cs.character_height : ℤ) + y)).map
      (fun byte => (byte / 2 ^ (LAST_X - x).toNat) % 2)
  else none

/-- `Character.pixel` delegates to `Charset.pixel` with the stored index. -/
def CharacterView.pixel (c : CharacterView) (x y : ℤ) : Option ℕ :=
  c.charset.pixel c.character x y

/-!
## The pixel grid fed into `CharacterOutline`

`CharacterOutline` only consumes `character.width` (always 8),
`character.height` and `character.pixel(x, y)` for in-range coordinates, so
the outline pipeline is embedded over an abstract grid.
-/

/-- The pixel grid a `Character` presents to `CharacterOutline`:
a height and a boolean pixel lookup (width is the constant 8). -/
structure Grid where
  height : ℕ
  pix : ℕ → ℕ → Bool

/-- A quarter-pixel cell: the unit square `[x, x+1] × [y, y+1]` in
quarter-pixel coordinates. -/
abbrev Cell := ℤ × ℤ

/-- A region: the set of quarter-cells covered by a polygon. -/
abbrev Region := Finset Cell

/-- The cells of the half-open box `(x1, y1)-(x2, y2)`
(quarter-pixel coordinates). -/
def boxCells (x1 y1 x2 y2 : ℤ) : Region :=
  Finset.Ico x1 x2 ×ˢ Finset.Ico y1 y2

/-- `shapely.geometry.box(x, y, x+1, y+1)` for pixel `(x, y)`:
a 4x4 block of quarter-cells. -/
def pixelBox (x y : ℕ) : Region :=
  boxCells (4 * (x : ℤ)) (4 * (y : ℤ)) (4 * (x : ℤ) + 4) (4 * (y : ℤ) + 4)

/-- `CharacterOutline._scan_boxes`: row by row, left to right, append a unit
box for every set pixel.  (The source iterates `enumerate(row + [0])`; the
trailing sentinel is never set, so it never appends a box.) -/
def scanBoxes (g : Grid) : List Region :=
  (List.range g.height).flatMap (fun y =>
    (List.range WIDTH).filterMap (fun x =>
      if g.pix x y then some (pixelBox x y) else none))

/-- The set of quarter-cells covered by the set pixels of a grid: the
"union of the unit squares of the on pixels" that the spec's coverage
property talks about. -/
def onPixelCells (g : Grid) : Region :=
  (boxCells 0 0 (4 * (WIDTH : ℤ)) (4 * (g.height : ℤ))).filter
    (fun c => g.pix (c.1 / 4).toNat (c.2 / 4).toNat)

/-!
## The geometry model

Regions are finite sets of quarter-cells; the shapely operations used by the
source are modelled exactly for such regions (see the header).
-/

/-- Lexicographic order on cells, used to enumerate a region's cells in a
deterministic (and computable) way. -/
def cellLE (c d : Cell) : Prop :=
  c.1 < d.1 ∨ (c.1 = d.1 ∧ c.2 ≤ d.2)

instance : DecidableRel cellLE := fun c d => by
  unfold cellLE
  infer_instance

instance : IsTrans Cell cellLE :=
  ⟨fun a b c hab hbc => by
    rcases hab with h | ⟨h1, h2⟩ <;> rcases hbc with h' | ⟨h1', h2'⟩ <;>
      unfold cellLE <;> omega⟩

instance : IsAntisymm Cell cellLE :=
  ⟨fun a b hab hba => by
    rcases a with ⟨ax, ay⟩
    rcases b with ⟨bx, by'⟩
    rcases hab with h | ⟨h1, h2⟩ <;> rcases hba with h' | ⟨h1', h2'⟩ <;>
      simp_all <;> omega⟩

instance : IsTotal Cell cellLE :=
  ⟨fun a b => by unfold cellLE; omega⟩

/-- Sorting a list of cells respects permutation, so it lifts to
multisets. -/
theorem insertionSort_cellLE_perm_eq {l1 l2 : List Cell} (h : l1.Perm l2) :
    l1.insertionSort cellLE = l2.insertionSort cellLE :=
  List.eq_of_perm_of_sorted
    ((List.perm_insertionSort _ _).trans (h.trans (List.perm_insertionSort _ _).symm))
    (List.sorted_insertionSort _ _) (List.sorted_insertionSort _ _)

/-- The cells of a region, enumerated in lexicographic order (insertion
sort on the underlying multiset, so that it evaluates by kernel
reduction). -/
def cellList (r : Region) : List Cell :=
  Quot.liftOn r.val (fun l => l.insertionSort cellLE)
    (fun _ _ h => insertionSort_cellLE_perm_eq h)

/-- `cellList` enumerates exactly the cells of the region. -/
theorem mem_cellList {r : Region} {c : Cell} : c ∈ cellList r ↔ c ∈ r := by
  rcases r with ⟨m, nodup⟩
  induction m using Quot.inductionOn with
  | h l =>
    show c ∈ l.insertionSort cellLE ↔ _
    rw [(List.perm_insertionSort cellLE l).mem_iff]
    rfl

/-- `cellList` is empty exactly for the empty region. -/
theorem cellList_eq_nil {r : Region} : cellList r = [] ↔ r = ∅ := by
  constructor
  · intro h
    ext c
    simp only [Finset.not_mem_empty, iff_false]
    intro hc
    have := mem_cellList.mpr hc
    rw [h] at this
    exact absurd this (List.not_mem_nil c)
  · intro h
    subst h
    rfl

/-- Two cells share an edge (4-adjacency).  The interiors of a union of
cells form one connected open set exactly along 4-adjacencies. -/
def edgeAdj (c d : Cell) : Bool :=
  (c.1 - d.1).natAbs + (c.2 - d.2).natAbs = 1

/-- Two cells share at least a boundary point (edge or corner,
Chebyshev distance 1). -/
def cornerAdj (c d : Cell) : Bool :=
  max (c.1 - d.1).natAbs (c.2 - d.2).natAbs = 1

/-- One step of region growth: add the cells of `r` that are edge-adjacent
to the current set `s`. -/
def growOnce (r : Region) (s : Region) : Region :=
  s ∪ r.filter (fun c => (cellList s).any (fun d => edgeAdj c d))

/-- The 4-connected component of `c` inside `r` (grow `|r|` times). -/
def componentFrom (r : Region) (c : Cell) : Region :=
  (growOnce r)^[r.card] {c}

/-- Whether a region is 4-connected, i.e. whether shapely would call its
closure a single `Polygon` rather than a `MultiPolygon`.  (OGC polygons must
have a connected interior, so corner contact does not connect.) -/
def isConnectedRegion (r : Region) : Bool :=
  match cellList r with
  | [] => true
  | c :: _ => componentFrom r c = r

/-- The list of 4-connected components of a region (fuelled; the fuel
`r.card` always suffices). -/
def componentsAux : ℕ → Region → List Region
  | 0, _ => []
  | n + 1, r =>
    match cellList r with
    | [] => []
    | c :: _ =>
      let comp := componentFrom r c
      comp :: componentsAux n (r \ comp)

/-- The 4-connected components of a region. -/
def components (r : Region) : List Region :=
  componentsAux r.card r

/-- `shapely` `touches`: closures intersect but interiors do not.  For cell
regions: the cell sets are disjoint, and some pair of cells is edge- or
corner-adjacent. -/
def touchesR (a b : Region) : Bool :=
  a ∩ b = ∅ ∧ (cellList a).any (fun c => (cellList b).any (fun d => cornerAdj c d))

/-- `shapely` `A.contains(B)`: every point of `B` lies in `A` and the
interiors intersect.  For cell regions: `B` is nonempty and `B ⊆ A`. -/
def containsR (a b : Region) : Bool :=
  b ≠ ∅ ∧ b ⊆ a

/-- A geometry value as the source manipulates it: either a shapely
`Polygon` (possibly empty) or a `MultiPolygon` with an ordered member
list. -/
inductive Geometry where
  | poly (r : Region)
  | multi (rs : List Region)
deriving DecidableEq

/-- The area covered by a geometry: union of its members' cells. -/
def covL (rs : List Region) : Region :=
  rs.foldr (· ∪ ·) ∅

/-- The area covered by a geometry. -/
def covG : Geometry → Region
  | .poly r => r
  | .multi rs => covL rs

/-- `geometry.is_empty`. -/
def isEmptyG : Geometry → Bool
  | .poly r => r = ∅
  | .multi rs => rs.all (· = ∅)

/-- The result of a shapely binary union of cell regions: a `Polygon` when
the union is 4-connected, otherwise the `MultiPolygon` of its components. -/
def unionGeom (s : Region) : Geometry :=
  if isConnectedRegion s then .poly s else .multi (components s)

/-- Whether a region has a hole: a bounded 4-connected component of its
complement, i.e. an empty cell inside a one-cell-margin bounding frame that
is not 4-reachable from the frame's border. -/
def hasHolesR (r : Region) : Bool :=
  match cellList r with
  | [] => false
  | c :: _ =>
    let l := cellList r
    let x0 := (l.map Prod.fst).foldr min c.1 - 1
    let x1 := (l.map Prod.fst).foldr max c.1 + 1
    let y0 := (l.map Prod.snd).foldr min c.2 - 1
    let y1 := (l.map Prod.snd).foldr max c.2 + 1
    let frame := boxCells x0 y0 (x1 + 1) (y1 + 1)
    let emptyCells := frame \ r
    let border := emptyCells.filter
      (fun e => e.1 = x0 ∨ e.1 = x1 ∨ e.2 = y0 ∨ e.2 = y1)
    let outside := (growOnce emptyCells)^[emptyCells.card] border
    decide (outside ≠ emptyCells)

/-- `CharacterOutline._has_holes`: a `Polygon` has holes iff its interior
ring list is nonempty; a `MultiPolygon` iff some member has holes. -/
def hasHolesG : Geometry → Bool
  | .poly r => hasHolesR r
  | .multi rs => rs.any hasHolesR

/-!
## `CharacterOutline._union_or_combine` and `_union_boxes`
-/

/-- The `MultiPolygon` branch of `_union_or_combine`: walk the member list;
for the first member that touches the new polygon and whose union with it is
a single hole-free `Polygon`, replace that member by the union
(`geoms[:i] + [union] + geoms[i+1:]`); if no member qualifies, report
failure (`none`), and the caller appends the polygon instead. -/
def uocScan (b : Region) : List Region → Option (List Region)
  | [] => none
  | r :: rest =>
    if touchesR r b ∧ isConnectedRegion (r ∪ b) ∧ ¬ hasHolesR (r ∪ b) then
      some ((r ∪ b) :: rest)
    else
      (uocScan b rest).map (fun l => r :: l)

/-- `CharacterOutline._union_or_combine(polygon, geometry)`.

For a `Polygon` geometry: take the shapely union; if it has no holes it is
returned as is (it may be a `MultiPolygon` when the two parts are disjoint),
otherwise the two polygons are kept as a two-member `MultiPolygon`.

For a `MultiPolygon`: try `uocScan`; if no clean union exists, append the
polygon as a new member (`MultiPolygon(geoms + [polygon])`). -/
def unionOrCombine (b : Region) : Geometry → Geometry
  | .poly r =>
    let u := unionGeom (r ∪ b)
    if ¬ hasHolesG u then u else .multi [r, b]
  | .multi rs =>
    match uocScan b rs with
    | some rs1 => .multi rs1
    | none => .multi (rs ++ [b])

/-- The first phase of `_union_boxes`: `while boxes: combined =
cls._union_or_combine(boxes.pop(), combined)`.  `boxes.pop()` removes the
*last* element, so the loop consumes the list back to front; that is exactly
a right fold of `_union_or_combine` over the list. -/
def unionBoxesLoop (boxes : List Region) (g : Geometry) : Geometry :=
  boxes.foldr unionOrCombine g

/-- One pass of the pairwise re-union scan at the end of `_union_boxes`:
for the first pair (in `itertools.combinations` order) that touches and
whose union is a single hole-free `Polygon`, remove both and append the
union; `none` when no pair qualifies (the pass found no more unions). -/
def findMergeAux (rs : List Region) : List (Region × Region) → Option (List Region)
  | [] => none
  | (p1, p2) :: rest =>
    if touchesR p1 p2 ∧ isConnectedRegion (p1 ∪ p2) ∧ ¬ hasHolesR (p1 ∪ p2) then
      some (((rs.erase p1).erase p2) ++ [p1 ∪ p2])
    else
      findMergeAux rs rest

/-- `itertools.combinations(l, 2)` in iteration order. -/
def combos : List α → List (α × α)
  | [] => []
  | x :: xs => xs.map (fun y => (x, y)) ++ combos xs

/-- One pass of the pairwise re-union scan over all 2-combinations. -/
def findMerge (rs : List Region) : Option (List Region) :=
  findMergeAux rs (combos rs)

/-- The `while isinstance(combined, MultiPolygon)` loop of `_union_boxes`,
fuelled: each iteration either finds a merge (member count drops by one) and
loops, or breaks.  `none` means the fuel ran out (never happens: see
`pairLoop_total`). -/
def pairLoop : ℕ → Geometry → Option Geometry
  | _, .poly r => some (.poly r)
  | 0, .multi rs =>
    match findMerge rs with
    | none => some (.multi rs)
    | some _ => none
  | n + 1, .multi rs =>
    match findMerge rs with
    | none => some (.multi rs)
    | some rs1 => pairLoop n (.multi rs1)

/-- `CharacterOutline._union_boxes(boxes, geometry)`: fold the boxes into
the geometry (back to front, via `boxes.pop()`), then run the pairwise
re-union loop.  The fuel `|members| + 1` always suffices
(`pairLoop_total`), so the fallback branch of `getD` is dead code. -/
def unionBoxes (boxes : List Region) (g : Geometry) : Geometry :=
  let folded := unionBoxesLoop boxes g
  (pairLoop (match folded with | .poly _ => 0 | .multi rs => rs.length + 1) folded).getD folded

/-!
## `CharacterOutline._overlap_touching` and `_find_overlap_box`
-/

/-- `OVERLAP = 0.25` pixel = 1 quarter-cell. -/
def OVERLAP : ℤ := 1

/-- `CharacterOutline._find_overlap_box(coords, overlapped)`, modelled
literally: extrude the segment by `OVERLAP` according to its orientation
(returning `None` for a degenerate segment), sort the coordinates, build the
box, and return it only if `overlapped` contains it. -/
def findOverlapBox (p q : Cell) (overlapped : Region) : Option Region :=
  let x1 := p.1
  let y1 := p.2
  let x2 := q.1
  let y2 := q.2
  let ext : Option (ℤ × ℤ × ℤ × ℤ) :=
    if x1 < x2 then some (x1, y1, x2, y2 + OVERLAP)
    else if x2 < x1 then some (x1, y1 - OVERLAP, x2, y2)
    else if y1 < y2 then some (x1 - OVERLAP, y1, x2, y2)
    else if y2 < y1 then some (x1, y1, x2 + OVERLAP, y2)
    else none
  match ext with
  | none => none
  | some (a, b, c, d) =>
    let extruded := boxCells (min a c) (min b d) (max a c) (max b d)
    if containsR overlapped extruded then some extruded else none

/-- The boundary segments of a polygon, modelling
`overlapper.boundary.coords[i:i+2]`: for every cell of the region and every
empty 4-neighbour, the unit edge between them, oriented the way the ring
orientation GEOS produces makes `_find_overlap_box` extrude *out of* the
polygon (left-to-right along the bottom, right-to-left along the top,
downwards along the left side, upwards along the right side). -/
def boundaryEdges (r : Region) : List (Cell × Cell) :=
  (cellList r).flatMap (fun c =>
    let x := c.1
    let y := c.2
    (if (x, y - 1) ∈ r then [] else [((x + 1, y), (x, y))]) ++
    (if (x, y + 1) ∈ r then [] else [((x, y + 1), (x + 1, y + 1))]) ++
    (if (x - 1, y) ∈ r then [] else [((x, y), (x, y + 1))]) ++
    (if (x + 1, y) ∈ r then [] else [((x + 1, y + 1), (x + 1, y))]))

/-- `LineString(coords).touches(overlapped)` for a unit boundary edge from
`p` to `q`: the closed segment meets the closure of the region (some cell's
closed square meets the segment), and the open segment does not meet the
region's interior (the cells on both sides of the edge are not both in the
region). -/
def lineTouches (p q : Cell) (b : Region) : Bool :=
  let xlo := min p.1 q.1
  let xhi := max p.1 q.1
  let ylo := min p.2 q.2
  let yhi := max p.2 q.2
  ((cellList b).any (fun e =>
      xlo - 1 ≤ e.1 ∧ e.1 ≤ xhi ∧ ylo - 1 ≤ e.2 ∧ e.2 ≤ yhi)) &&
  ! (if p.1 = q.1 then
      ((p.1 - 1, ylo) ∈ b ∧ (p.1, ylo) ∈ b : Bool)
    else
      ((xlo, p.2 - 1) ∈ b ∧ (xlo, p.2) ∈ b : Bool))

/-- The extensions collected for one `(overlapper, overlapped)` direction:
for every boundary segment of the overlapper that touches the overlapped
polygon, the extrusion accepted by `_find_overlap_box` (if any). -/
def collectExts (overlapper overlapped : Region) : List Region :=
  (boundaryEdges overlapper).filterMap (fun e =>
    if lineTouches e.1 e.2 overlapped then findOverlapBox e.1 e.2 overlapped
    else none)

/-- `cascaded_union([overlapper] + extensions)` at the region level. -/
def unionAll (l : List Region) : Region :=
  l.foldr (· ∪ ·) ∅

/-- The member-list surgery of `_overlap_touching` once extensions exist:
`new_geoms[overlapper_index] = new_overlapper`, and when the overlapper came
first, swap it behind the overlapped polygon so it is drawn on top. -/
def surgery (rs : List Region) (overlapper overlapped newOverlapper : Region) :
    List Region :=
  let oi := rs.indexOf overlapper
  let di := rs.indexOf overlapped
  if oi < di then (rs.set oi overlapped).set di newOverlapper
  else rs.set oi newOverlapper

/-- Try one `(overlapper, overlapped)` direction of a touching pair: if any
extensions are collected, merge them into the overlapper and rebuild the
member list. -/
def tryPair (rs : List Region) (overlapper overlapped : Region) :
    Option (List Region) :=
  let exts := collectExts overlapper overlapped
  if exts.isEmpty then none
  else some (surgery rs overlapper overlapped (unionAll (overlapper :: exts)))

/-- The pair scan of `_overlap_touching`: for the first touching pair (in
`itertools.combinations` order) and the first direction that collects
extensions, return the updated member list; `none` when no pair yields any
extension (the recursion terminates and the geometry is returned as is). -/
def stepPairs (rs : List Region) : List (Region × Region) → Option (List Region)
  | [] => none
  | (p1, p2) :: rest =>
    if touchesR p1 p2 then
      match tryPair rs p1 p2 with
      | some l => some l
      | none =>
        match tryPair rs p2 p1 with
        | some l => some l
        | none => stepPairs rs rest
    else stepPairs rs rest

/-- One repair step of `_overlap_touching` on a member list. -/
def repairStep (rs : List Region) : Option (List Region) :=
  stepPairs rs (combos rs)

/-- `CharacterOutline._overlap_touching`, fuelled: empty geometries and
single polygons are returned unchanged; otherwise apply repair steps until
no touching pair yields an extension.  `none` means the fuel ran out (a
sufficient fuel always exists: see `overlapTouching_total`). -/
def overlapTouching : ℕ → Geometry → Option Geometry
  | _, .poly r => some (.poly r)
  | 0, .multi rs =>
    if isEmptyG (.multi rs) then some (.multi rs)
    else
      match repairStep rs with
      | none => some (.multi rs)
      | some _ => none
  | n + 1, .multi rs =>
    if isEmptyG (.multi rs) then some (.multi rs)
    else
      match repairStep rs with
      | none => some (.multi rs)
      | some rs1 => overlapTouching n (.multi rs1)

/-!
## The full `CharacterOutline.__init__` pipeline
-/

/-- `CharacterOutline._simplify` returns its argument unchanged (the convex
hull experiment is commented out after an unconditional `return geometry`). -/
def simplifyG (g : Geometry) : Geometry := g

/-- Fuel that always suffices for `overlapTouching` (each repair step grows
the total member size, which is bounded by `|members| * |covered area|`;
see `overlapTouching_total`). -/
def repairFuel : Geometry → ℕ
  | .poly _ => 0
  | .multi rs => rs.length * (covL rs).card + 1

/-- `CharacterOutline.__init__`: scan the boxes, fold and re-union them, and
repair touching members.  (`self.geometry = self._simplify(overlapped)` is
the identity.)  The `getD` fallback is dead code by
`overlapTouching_total`. -/
def characterOutline (g : Grid) : Geometry :=
  let u := unionBoxes (scanBoxes g) (.poly ∅)
  simplifyG ((overlapTouching (repairFuel u) u).getD u)

/-!
## Spec-side definitions

These follow the specification's words rather than the source, for the
claims that compare the two.
-/

/-- The fold of `_union_boxes` as the spec describes it: the rectangle
merged at every step is the *earliest* not-yet-consumed rectangle of the
scan sequence (front-to-back), rather than the `boxes.pop()` order of the
source. -/
def unionBoxesLoopScanOrder (boxes : List Region) (g : Geometry) : Geometry :=
  boxes.foldl (fun acc b => unionOrCombine b acc) g

/-- `_union_boxes` with the spec's scanner-order consumption followed by
the same pairwise re-union loop. -/
def unionBoxesScanOrder (boxes : List Region) (g : Geometry) : Geometry :=
  let folded := unionBoxesLoopScanOrder boxes g
  (pairLoop (match folded with | .poly _ => 0 | .multi rs => rs.length + 1) folded).getD folded

/-- The number of member pairs that touch (the "boundary touch count" of
the termination claim). -/
def touchCount (rs : List Region) : ℕ :=
  ((combos rs).filter (fun p => touchesR p.1 p.2)).length

/-- The total member size of a member list (sum of covered cells, counted
per member).  Each repair step strictly increases it. -/
def totalSize (rs : List Region) : ℕ :=
  (rs.map Finset.card).sum

/-- The candidate box `_find_overlap_box` builds for a segment before the
containment test (the extrusion if-chain followed by coordinate sorting).
For a degenerate segment the value is irrelevant (the source returns
`None` before building it). -/
def extrudedCoords (p q : Cell) : ℤ × ℤ × ℤ × ℤ :=
  if p.1 < q.1 then (p.1, p.2, q.1, q.2 + OVERLAP)
  else if q.1 < p.1 then (p.1, p.2 - OVERLAP, q.1, q.2)
  else if p.2 < q.2 then (p.1 - OVERLAP, p.2, q.1, q.2)
  else (p.1, p.2, q.1 + OVERLAP, q.2)

/-- The candidate extension box for a (non-degenerate) segment. -/
def extrudedBox (p q : Cell) : Region :=
  let e := extrudedCoords p q
  let a := e.1
  let b := e.2.1
  let c := e.2.2.1
  let d := e.2.2.2
  boxCells (min a c) (min b d) (max a c) (max b d)

/-!
## Concrete fixtures used in counterexamples and witnesses
-/

/-- A 28-byte all-zero charset with the default character height 14
(two characters). -/
def csExample : Charset :=
  ⟨List.replicate 28 0, 14⟩

/-- A one-row grid whose single row has a maximal run of two set pixels
(at x = 0 and x = 1). -/
def gridRun2 : Grid :=
  ⟨1, fun x _ => decide (x < 2)⟩

/-- One quarter-cell box at the origin. -/
def boxA : Region := boxCells 0 0 1 1

/-- One quarter-cell box to the right of `boxA` (they share an edge). -/
def boxB : Region := boxCells 1 0 2 1

/-- One quarter-cell box diagonally adjacent to `boxA` (corner touch). -/
def boxDiag : Region := boxCells 1 1 2 2

/-- One quarter-cell box corner-adjacent to `boxB` but 2 away from
`boxA`. -/
def boxC : Region := boxCells 2 (-1) 3 0

/-- Four pairwise far-apart quarter-cell boxes (used to observe the
consumption order of `_union_boxes`). -/
def boxesFar : List Region :=
  [boxCells 0 0 1 1, boxCells 3 0 4 1, boxCells 6 0 7 1, boxCells 9 0 10 1]

/-!
## Claims about `Charset`
-/

/-- Claim C10: indexing a `Charset` with `i < 0` or
`i >= len(data) // character_height` raises `IndexError` (in particular
negative indices do not wrap), and every in-range `i` yields the
`Character` view over index `i`. -/
theorem charset_getitem_spec (cs : Charset) (i : ℤ) :
    (cs.getitem i = none ↔ i < 0 ∨ (cs.numChars : ℤ) ≤ i) ∧
    (0 ≤ i → i < (cs.numChars : ℤ) → cs.getitem i = some ⟨cs, i⟩) := by
  unfold Charset.getitem
  constructor
  · split_ifs with h
    · exact iff_of_true rfl h
    · exact iff_of_false (by simp) h
  · intro h1 h2
    rw [if_neg]
    omega

/-- Witness for C10 on the concrete two-character charset: index 1 is in
range and yields the view, index -1 and index 2 raise `IndexError`. -/
theorem charset_getitem_spec_witness :
    csExample.getitem 1 = some ⟨csExample, 1⟩ ∧
    csExample.getitem (-1) = none ∧ csExample.getitem 2 = none :=
  ⟨(charset_getitem_spec csExample 1).2 (by decide) (by decide),
   (charset_getitem_spec csExample (-1)).1.mpr (by decide),
   (charset_getitem_spec csExample 2).1.mpr (by decide)⟩

/-- Counterexample to claim C8: `Charset.pixel` does *not* fail for every
`y` outside `[0, height)`.  On the all-zero two-character charset with
height 14, the query `pixel(0, 0, 14)` has `y = 14 ≥ height` yet returns
the value `0` (it silently reads the first row of character 1). -/
theorem charset_pixel_y_oob_counterexample :
    csExample.character_height = 14 ∧ csExample.pixel 0 0 14 = some 0 := by
  decide

/-- Claim C8 (amended): a pixel query fails exactly when `x` is outside
`[0, 8)` (the `assert`) or when the computed byte index
`character * character_height + y` falls outside the data bytes (Python
indexing, with single negative wrap); `y` itself is not bounds-checked.
Every successful query returns 0 or 1. -/
theorem charset_pixel_amended (cs : Charset) (c x y : ℤ) :
    (cs.pixel c x y = none ↔
      x < 0 ∨ LAST_X < x ∨
        pyBytesGet cs.data (c * cs.character_height + y) = none) ∧
    (∀ v, cs.pixel c x y = some v → v = 0 ∨ v = 1) := by
  unfold Charset.pixel
  constructor
  · split_ifs with h
    · cases hb : pyBytesGet cs.data (c * cs.character_height + y) with
      | none => simp [hb]
      | some byte =>
        refine iff_of_false (by simp) ?_
        have h7 : 0 ≤ x ∧ x ≤ (7 : ℤ) := h
        rintro (h1 | h1 | h1)
        · omega
        · have h1' : (7 : ℤ) < x := h1
          omega
        · exact absurd h1 (by simp)
    · refine iff_of_true rfl ?_
      have h7 : ¬(0 ≤ x ∧ x ≤ (7 : ℤ)) := h
      have hx : x < 0 ∨ (7 : ℤ) < x := by omega
      rcases hx with hx | hx
      · exact Or.inl hx
      · exact Or.inr (Or.inl hx)
  · intro v hv
    split_ifs at hv with h
    · cases hb : pyBytesGet cs.data (c * cs.character_height + y) with
      | none => rw [hb] at hv
                exact absurd hv (by simp)
      | some byte =>
        rw [hb] at hv
        simp at hv
        omega

/-- Witness for C8 (amended) at a concrete in-range query: the returned
value is 0 or 1. -/
theorem charset_pixel_amended_witness : (0 : ℕ) = 0 ∨ (0 : ℕ) = 1 :=
  (charset_pixel_amended csExample 0 0 0).2 0 (by decide)

/-!
## Claim about `_scan_boxes` granularity
-/

/-- Evaluation of `_scan_boxes` at the failing input for claim C3: a row
with one maximal run of two adjacent set pixels yields *two* one-pixel
rectangles (whose union is the single 2-wide rectangle `box(0,0,2,1)`,
i.e. `boxCells 0 0 8 4` in quarter-cells), not one 2-wide rectangle.  The
repository's own `test_makefont.py` (`RECTANGLES_01`) expects one
rectangle per maximal run. -/
theorem scanBoxes_run2_two_unit_boxes :
    scanBoxes gridRun2 = [pixelBox 0 0, pixelBox 1 0] ∧
    pixelBox 0 0 ∪ pixelBox 1 0 = boxCells 0 0 8 4 ∧
    pixelBox 0 0 ≠ boxCells 0 0 8 4 := by
  decide

/-!
## Claim about `_find_overlap_box`
-/

/-- For a non-degenerate segment, `_find_overlap_box` is the containment
test on the extruded candidate. -/
theorem findOverlapBox_eq (p q : Cell) (B : Region) (h : p ≠ q) :
    findOverlapBox p q B =
      (if containsR B (extrudedBox p q) then some (extrudedBox p q) else none) := by
  have hcase : p.1 < q.1 ∨ q.1 < p.1 ∨ (p.1 = q.1 ∧ p.2 < q.2) ∨
      (p.1 = q.1 ∧ q.2 < p.2) := by
    by_contra hc
    push_neg at hc
    apply h
    have h1 : p.1 = q.1 := by omega
    have h2 : p.2 = q.2 := by
      rcases hc with ⟨_, _, h3, h4⟩
      omega
    exact Prod.ext h1 h2
  rcases hcase with h1 | h1 | ⟨h1, h2⟩ | ⟨h1, h2⟩
  · simp [findOverlapBox, extrudedBox, extrudedCoords, h1]
  · have hn : ¬ p.1 < q.1 := by omega
    simp [findOverlapBox, extrudedBox, extrudedCoords, h1, hn]
  · have hn1 : ¬ p.1 < q.1 := by omega
    have hn2 : ¬ q.1 < p.1 := by omega
    simp [findOverlapBox, extrudedBox, extrudedCoords, h2, hn1, hn2]
  · have hn1 : ¬ p.1 < q.1 := by omega
    have hn2 : ¬ q.1 < p.1 := by omega
    have hn3 : ¬ p.2 < q.2 := by omega
    simp [findOverlapBox, extrudedBox, extrudedCoords, h2, hn1, hn2, hn3]

/-- For a degenerate segment (`else: return None`), no box is returned. -/
theorem findOverlapBox_degenerate (p : Cell) (B : Region) :
    findOverlapBox p p B = none := by
  simp [findOverlapBox, lt_irrefl]

/-- Any box returned by `_find_overlap_box` passed the containment test. -/
theorem findOverlapBox_some {p q : Cell} {ovd e : Region}
    (h : findOverlapBox p q ovd = some e) : containsR ovd e = true := by
  by_cases hpq : p = q
  · subst hpq
    rw [findOverlapBox_degenerate] at h
    exact absurd h (by simp)
  · rw [findOverlapBox_eq p q ovd hpq] at h
    by_cases hc : containsR ovd (extrudedBox p q) = true
    · rw [if_pos hc] at h
      have he : e = extrudedBox p q := (Option.some.injEq _ _ ▸ h).symm
      rw [he]
      exact hc
    · rw [if_neg hc] at h
      exact absurd h (by simp)

/-- Claim C7: for every non-degenerate boundary segment, the candidate
extension box is returned exactly when the overlapped polygon contains it;
otherwise the function silently returns nothing (it never returns anything
other than the extruded candidate). -/
theorem findOverlapBox_contains_iff (p q : Cell) (B : Region) (h : p ≠ q) :
    (findOverlapBox p q B = some (extrudedBox p q) ↔
      containsR B (extrudedBox p q) = true) ∧
    (∀ r, findOverlapBox p q B = some r → r = extrudedBox p q) := by
  have hred := findOverlapBox_eq p q B h
  constructor
  · rw [hred]
    split_ifs with hc
    · simp [hc]
    · simp [hc]
  · intro r hr
    rw [hred] at hr
    by_cases hc : containsR B (extrudedBox p q) = true
    · rw [if_pos hc] at hr
      exact (Option.some.injEq _ _ ▸ hr).symm
    · rw [if_neg hc] at hr
      exact absurd hr (by simp)

/-- Witness for C7: a concrete horizontal segment on the top edge of a
box, whose extension lies inside it, is accepted. -/
theorem findOverlapBox_contains_iff_witness :
    findOverlapBox (0, 1) (4, 1) (boxCells 0 1 4 3) =
      some (extrudedBox (0, 1) (4, 1)) :=
  (findOverlapBox_contains_iff (0, 1) (4, 1) (boxCells 0 1 4 3)
    (by decide)).1.mpr (by decide)

/-!
## Claim about the consumption order of `_union_boxes`
-/

set_option maxRecDepth 8000 in
/-- Counterexample to claim C4: `_union_boxes` does *not* consume the
scanned rectangles in scanner order.  On four far-apart boxes the result
differs from the scanner-order fold (`boxes.pop()` takes the *last*
rectangle first, so disjoint members end up appended in reverse scan
order). -/
theorem unionBoxes_not_scan_order :
    unionBoxes boxesFar (.poly ∅) ≠ unionBoxesScanOrder boxesFar (.poly ∅) := by
  decide

/-- Claim C4 (amended): the accumulator consumes the scanned rectangles in
*reverse* scanner order: at every folding step the rectangle merged into
the current set is the *latest* not-yet-consumed rectangle (the loop pops
from the end of the list), so the whole of `_union_boxes` equals the
scanner-order fold of the reversed sequence. -/
theorem unionBoxes_eq_scanOrder_reverse (boxes : List Region) (g : Geometry) :
    unionBoxes boxes g = unionBoxesScanOrder boxes.reverse g := by
  unfold unionBoxes unionBoxesScanOrder unionBoxesLoop unionBoxesLoopScanOrder
  rw [List.foldl_reverse]

/-!
## Helper lemmas: covered area
-/

theorem mem_covL {rs : List Region} {c : Cell} :
    c ∈ covL rs ↔ ∃ r ∈ rs, c ∈ r := by
  induction rs with
  | nil => simp [covL]
  | cons r t ih =>
    show c ∈ r ∪ covL t ↔ _
    simp [Finset.mem_union, ih]

theorem covL_append (l1 l2 : List Region) :
    covL (l1 ++ l2) = covL l1 ∪ covL l2 := by
  induction l1 with
  | nil =>
    show covL l2 = ∅ ∪ covL l2
    rw [Finset.empty_union]
  | cons r t ih =>
    show r ∪ covL (t ++ l2) = (r ∪ covL t) ∪ covL l2
    rw [ih, Finset.union_assoc]

theorem subset_covL {rs : List Region} {a : Region} (h : a ∈ rs) :
    a ⊆ covL rs :=
  fun c hc => mem_covL.mpr ⟨a, h, hc⟩

theorem covL_erase {rs : List Region} {a : Region} (h : a ∈ rs) :
    covL (rs.erase a) ∪ a = covL rs := by
  induction rs with
  | nil => exact absurd h (List.not_mem_nil a)
  | cons r t ih =>
    by_cases hra : r = a
    · subst hra
      rw [List.erase_cons_head]
      show covL t ∪ r = r ∪ covL t
      exact Finset.union_comm _ _
    · rw [List.erase_cons_tail (by simp [hra])]
      have hat : a ∈ t := by
        rcases List.mem_cons.mp h with h1 | h1
        · exact absurd h1.symm hra
        · exact h1
      show (r ∪ covL (t.erase a)) ∪ a = r ∪ covL t
      rw [Finset.union_assoc, ih hat]

theorem covL_set (l : List Region) (i : ℕ) (x : Region) (h : i < l.length) :
    covL (l.set i x) ∪ l.get ⟨i, h⟩ = covL l ∪ x := by
  induction l generalizing i with
  | nil => simp at h
  | cons r t ih =>
    cases i with
    | zero =>
      show (x ∪ covL t) ∪ r = (r ∪ covL t) ∪ x
      ext c
      simp [Finset.mem_union]
      tauto
    | succ j =>
      have hj : j < t.length := by simpa using h
      show (r ∪ covL (t.set j x)) ∪ t.get ⟨j, hj⟩ = (r ∪ covL t) ∪ x
      rw [Finset.union_assoc, ih j hj, Finset.union_assoc]

theorem get_set_self (l : List Region) (i : ℕ) (x : Region)
    (h2 : i < (l.set i x).length) : (l.set i x).get ⟨i, h2⟩ = x := by
  induction l generalizing i with
  | nil => simp at h2
  | cons r t ih =>
    cases i with
    | zero => rfl
    | succ j => exact ih j (by simpa using h2)

theorem get_set_other (l : List Region) (i j : ℕ) (x : Region) (hij : i ≠ j)
    (hj : j < l.length) (h2 : j < (l.set i x).length) :
    (l.set i x).get ⟨j, h2⟩ = l.get ⟨j, hj⟩ := by
  induction l generalizing i j with
  | nil => simp at hj
  | cons r t ih =>
    cases i with
    | zero =>
      cases j with
      | zero => exact absurd rfl hij
      | succ j2 => rfl
    | succ i2 =>
      cases j with
      | zero => rfl
      | succ j2 => exact ih i2 j2 (by omega) (by simpa using hj) (by simpa using h2)

theorem totalSize_set (l : List Region) (i : ℕ) (x : Region) (h : i < l.length) :
    totalSize (l.set i x) + (l.get ⟨i, h⟩).card = totalSize l + x.card := by
  induction l generalizing i with
  | nil => simp at h
  | cons r t ih =>
    cases i with
    | zero =>
      show (x.card + totalSize t) + r.card = (r.card + totalSize t) + x.card
      omega
    | succ j =>
      have hj : j < t.length := by simpa using h
      have := ih j hj
      show (r.card + totalSize (t.set j x)) + (t.get ⟨j, hj⟩).card =
        (r.card + totalSize t) + x.card
      omega

theorem totalSize_le (rs : List Region) :
    totalSize rs ≤ rs.length * (covL rs).card := by
  induction rs with
  | nil => simp [totalSize]
  | cons r t ih =>
    have h1 : r.card ≤ (covL (r :: t)).card :=
      Finset.card_le_card (subset_covL (List.mem_cons_self r t))
    have h2 : covL t ⊆ covL (r :: t) := by
      intro c hc
      rcases mem_covL.mp hc with ⟨a, ha, hca⟩
      exact mem_covL.mpr ⟨a, List.mem_cons_of_mem r ha, hca⟩
    have h3 : totalSize t ≤ t.length * (covL (r :: t)).card :=
      le_trans ih (Nat.mul_le_mul_left _ (Finset.card_le_card h2))
    show r.card + totalSize t ≤ (t.length + 1) * (covL (r :: t)).card
    rw [Nat.succ_mul]
    omega

/-!
## Helper lemmas: `combos`, `touchesR`, `containsR`
-/

theorem combos_mem {l : List α} {p : α × α} (h : p ∈ combos l) :
    p.1 ∈ l ∧ p.2 ∈ l := by
  induction l with
  | nil => exact absurd h (List.not_mem_nil p)
  | cons x xs ih =>
    rcases List.mem_append.mp h with h1 | h1
    · rcases List.mem_map.mp h1 with ⟨y, hy, hxy⟩
      subst hxy
      exact ⟨List.mem_cons_self x xs, List.mem_cons_of_mem x hy⟩
    · have := ih h1
      exact ⟨List.mem_cons_of_mem x this.1, List.mem_cons_of_mem x this.2⟩

theorem touchesR_disjoint {a b : Region} (h : touchesR a b = true) :
    a ∩ b = ∅ := by
  simp only [touchesR, Bool.and_eq_true, decide_eq_true_eq] at h
  exact h.1

theorem touchesR_nonempty_left {a b : Region} (h : touchesR a b = true) :
    a ≠ ∅ := by
  simp only [touchesR, Bool.and_eq_true, decide_eq_true_eq, List.any_eq_true] at h
  rcases h.2 with ⟨c, hc, _⟩
  intro habs
  rw [habs] at hc
  exact absurd (mem_cellList.mp hc) (Finset.not_mem_empty c)

theorem touchesR_ne {a b : Region} (h : touchesR a b = true) : a ≠ b := by
  intro habs
  subst habs
  have h1 := touchesR_disjoint h
  rw [Finset.inter_self] at h1
  exact touchesR_nonempty_left h h1

theorem containsR_spec {a b : Region} (h : containsR a b = true) :
    b ≠ ∅ ∧ b ⊆ a := by
  simp only [containsR, Bool.and_eq_true, decide_eq_true_eq] at h
  exact h

/-!
## Helper lemmas: components and the coverage of `unionGeom`
-/

theorem growOnce_subset (r s : Region) : growOnce r s ⊆ s ∪ r :=
  Finset.union_subset_union (le_refl s) (Finset.filter_subset _ r)

theorem subset_growOnce (r s : Region) : s ⊆ growOnce r s :=
  Finset.subset_union_left

theorem iterate_growOnce_subset (r : Region) (c : Cell) (n : ℕ) :
    (growOnce r)^[n] {c} ⊆ insert c r := by
  induction n with
  | zero =>
    intro x hx
    rw [Function.iterate_zero_apply] at hx
    exact Finset.mem_insert.mpr (Or.inl (Finset.mem_singleton.mp hx))
  | succ k ih =>
    rw [Function.iterate_succ_apply']
    intro x hx
    rcases Finset.mem_union.mp (growOnce_subset r _ hx) with h1 | h1
    · exact ih h1
    · exact Finset.mem_insert.mpr (Or.inr h1)

theorem componentFrom_subset {r : Region} {c : Cell} (hc : c ∈ r) :
    componentFrom r c ⊆ r := by
  have h := iterate_growOnce_subset r c r.card
  rwa [Finset.insert_eq_self.mpr hc] at h

theorem mem_componentFrom_self (r : Region) (c : Cell) :
    c ∈ componentFrom r c := by
  unfold componentFrom
  have : ∀ n, ({c} : Region) ⊆ (growOnce r)^[n] {c} := by
    intro n
    induction n with
    | zero => rw [Function.iterate_zero_apply]
    | succ k ih =>
      rw [Function.iterate_succ_apply']
      exact le_trans ih (subset_growOnce r _)
  exact this r.card (Finset.mem_singleton_self c)

theorem componentsAux_cov : ∀ (n : ℕ) (s : Region), s.card ≤ n →
    covL (componentsAux n s) = s := by
  intro n
  induction n with
  | zero =>
    intro s hs
    rw [Nat.le_zero, Finset.card_eq_zero] at hs
    subst hs
    rfl
  | succ k ih =>
    intro s hs
    unfold componentsAux
    cases hl : cellList s with
    | nil =>
      rw [cellList_eq_nil.mp hl]
      rfl
    | cons c rest =>
      have hc : c ∈ s := mem_cellList.mp (hl ▸ List.mem_cons_self c rest)
      have hsub : componentFrom s c ⊆ s := componentFrom_subset hc
      have hmem : c ∈ componentFrom s c := mem_componentFrom_self s c
      have hlt : (s \ componentFrom s c).card < s.card := by
        apply Finset.card_lt_card
        constructor
        · exact Finset.sdiff_subset
        · intro habs
          have := habs hc
          rw [Finset.mem_sdiff] at this
          exact this.2 hmem
      show covL (componentFrom s c :: componentsAux k (s \ componentFrom s c)) = s
      show componentFrom s c ∪ covL (componentsAux k (s \ componentFrom s c)) = s
      rw [ih _ (by omega)]
      exact Finset.union_sdiff_of_subset hsub

theorem covG_unionGeom (s : Region) : covG (unionGeom s) = s := by
  unfold unionGeom
  split_ifs with h
  · rfl
  · exact componentsAux_cov s.card s (le_refl _)

/-!
## Helper lemmas: coverage through `_union_or_combine` and `_union_boxes`
-/

theorem uocScan_cov {b : Region} : ∀ {rs rs1 : List Region},
    uocScan b rs = some rs1 → covL rs1 = b ∪ covL rs := by
  intro rs
  induction rs with
  | nil => intro rs1 h
           exact absurd h (by simp [uocScan])
  | cons r t ih =>
    intro rs1 h
    unfold uocScan at h
    split_ifs at h with hcond
    · have h1 : rs1 = (r ∪ b) :: t := by
        exact (Option.some.injEq _ _ ▸ h).symm
      subst h1
      show (r ∪ b) ∪ covL t = b ∪ (r ∪ covL t)
      ext c
      simp [Finset.mem_union]
      tauto
    · cases hscan : uocScan b t with
      | none => rw [hscan] at h
                exact absurd h (by simp)
      | some l =>
        rw [hscan] at h
        simp only [Option.map_some', Option.some.injEq] at h
        subst h
        show r ∪ covL l = b ∪ (r ∪ covL t)
        rw [ih hscan]
        ext c
        simp [Finset.mem_union]
        tauto

theorem covG_unionOrCombine (b : Region) (g : Geometry) :
    covG (unionOrCombine b g) = b ∪ covG g := by
  cases g with
  | poly r =>
    show covG (if ¬ hasHolesG (unionGeom (r ∪ b)) then unionGeom (r ∪ b)
      else .multi [r, b]) = b ∪ r
    split_ifs with h
    · show r ∪ (b ∪ ∅) = b ∪ r
      rw [Finset.union_empty]
      exact Finset.union_comm r b
    · rw [covG_unionGeom]
      exact Finset.union_comm r b
  | multi rs =>
    show covG (match uocScan b rs with
      | some rs1 => Geometry.multi rs1
      | none => Geometry.multi (rs ++ [b])) = b ∪ covL rs
    cases hscan : uocScan b rs with
    | some rs1 => exact uocScan_cov hscan
    | none =>
      show covL (rs ++ [b]) = b ∪ covL rs
      rw [covL_append]
      show covL rs ∪ (b ∪ ∅) = b ∪ covL rs
      rw [Finset.union_empty]
      exact Finset.union_comm _ _

theorem covG_unionBoxesLoop (boxes : List Region) (g : Geometry) :
    covG (unionBoxesLoop boxes g) = covL boxes ∪ covG g := by
  induction boxes with
  | nil =>
    show covG g = ∅ ∪ covG g
    rw [Finset.empty_union]
  | cons b t ih =>
    show covG (unionOrCombine b (unionBoxesLoop t g)) = (b ∪ covL t) ∪ covG g
    rw [covG_unionOrCombine, ih, Finset.union_assoc]

/-!
## Helper lemmas: the pairwise re-union loop of `_union_boxes`
-/

theorem findMergeAux_props {rs : List Region} :
    ∀ {ps : List (Region × Region)} {rs1 : List Region},
    (∀ p ∈ ps, p.1 ∈ rs ∧ p.2 ∈ rs) → findMergeAux rs ps = some rs1 →
    covL rs1 = covL rs ∧ rs1.length + 1 = rs.length := by
  intro ps
  induction ps with
  | nil => intro rs1 _ h
           exact absurd h (by simp [findMergeAux])
  | cons hd rest ih =>
    intro rs1 hmem h
    rcases hd with ⟨p1, p2⟩
    unfold findMergeAux at h
    split_ifs at h with hcond
    · have hrs1 : rs1 = ((rs.erase p1).erase p2) ++ [p1 ∪ p2] :=
        (Option.some.injEq _ _ ▸ h).symm
      subst hrs1
      have hp := hmem (p1, p2) (List.mem_cons_self _ _)
      have hne : p1 ≠ p2 := touchesR_ne hcond.1
      have hp2e : p2 ∈ rs.erase p1 :=
        (List.mem_erase_of_ne (Ne.symm hne)).mpr hp.2
      constructor
      · rw [covL_append]
        show covL ((rs.erase p1).erase p2) ∪ (p1 ∪ p2 ∪ ∅) = covL rs
        rw [Finset.union_empty]
        have e2 : covL ((rs.erase p1).erase p2) ∪ p2 = covL (rs.erase p1) :=
          covL_erase hp2e
        have e1 : covL (rs.erase p1) ∪ p1 = covL rs := covL_erase hp.1
        rw [Finset.union_comm p1 p2, ← Finset.union_assoc, e2, e1]
      · rw [List.length_append]
        have l2 : (rs.erase p1).length + 1 = rs.length :=
          List.length_erase_add_one hp.1
        have l3 : ((rs.erase p1).erase p2).length + 1 = (rs.erase p1).length :=
          List.length_erase_add_one hp2e
        simp only [List.length_cons, List.length_nil]
        omega
    · exact ih (fun p hp => hmem p (List.mem_cons_of_mem _ hp)) h

theorem findMerge_props {rs rs1 : List Region} (h : findMerge rs = some rs1) :
    covL rs1 = covL rs ∧ rs1.length + 1 = rs.length :=
  findMergeAux_props (fun _ hp => combos_mem hp) h

theorem pairLoop_cov : ∀ (n : ℕ) (g g1 : Geometry),
    pairLoop n g = some g1 → covG g1 = covG g := by
  intro n
  induction n with
  | zero =>
    intro g g1 h
    cases g with
    | poly r =>
      have : g1 = .poly r := Option.some.injEq _ _ ▸ h |>.symm
      rw [this]
    | multi rs =>
      unfold pairLoop at h
      cases hm : findMerge rs with
      | none =>
        rw [hm] at h
        have : g1 = .multi rs := Option.some.injEq _ _ ▸ h |>.symm
        rw [this]
      | some rs1 =>
        rw [hm] at h
        exact absurd h (by simp)
  | succ k ih =>
    intro g g1 h
    cases g with
    | poly r =>
      have : g1 = .poly r := Option.some.injEq _ _ ▸ h |>.symm
      rw [this]
    | multi rs =>
      unfold pairLoop at h
      cases hm : findMerge rs with
      | none =>
        rw [hm] at h
        have : g1 = .multi rs := Option.some.injEq _ _ ▸ h |>.symm
        rw [this]
      | some rs1 =>
        rw [hm] at h
        have := ih (.multi rs1) g1 h
        rw [this]
        exact (findMerge_props hm).1

theorem findMerge_short {rs : List Region} (h : rs.length ≤ 1) :
    findMerge rs = none := by
  cases rs with
  | nil => rfl
  | cons r t =>
    cases t with
    | nil => rfl
    | cons r2 t2 => simp at h

theorem pairLoop_total : ∀ (n : ℕ) (rs : List Region), rs.length ≤ n + 1 →
    pairLoop n (.multi rs) ≠ none := by
  intro n
  induction n with
  | zero =>
    intro rs hlen
    unfold pairLoop
    rw [findMerge_short hlen]
    simp
  | succ k ih =>
    intro rs hlen
    unfold pairLoop
    cases hm : findMerge rs with
    | none => simp
    | some rs1 =>
      have hl := (findMerge_props hm).2
      exact ih rs1 (by omega)

/-!
## Helper lemmas: the repair stage
-/

theorem unionAll_eq_covL (l : List Region) : unionAll l = covL l := rfl

theorem unionAll_subset {l : List Region} {u : Region}
    (h : ∀ e ∈ l, e ⊆ u) : unionAll l ⊆ u := by
  intro c hc
  rcases mem_covL.mp (unionAll_eq_covL l ▸ hc) with ⟨e, he, hce⟩
  exact h e he hce

theorem unionAll_ne_empty {l : List Region} (hne : l ≠ [])
    (h : ∀ e ∈ l, e ≠ ∅) : unionAll l ≠ ∅ := by
  cases l with
  | nil => exact absurd rfl hne
  | cons e t =>
    intro habs
    apply h e (List.mem_cons_self e t)
    have hsub : e ⊆ unionAll (e :: t) := Finset.subset_union_left
    rw [habs] at hsub
    exact Finset.subset_empty.mp hsub

theorem collectExts_sub {ovr ovd : Region} :
    ∀ e ∈ collectExts ovr ovd, e ≠ ∅ ∧ e ⊆ ovd := by
  intro e he
  unfold collectExts at he
  rcases List.mem_filterMap.mp he with ⟨edge, _, hres⟩
  split_ifs at hres with hl
  exact containsR_spec (findOverlapBox_some hres)

theorem tryPair_some {rs : List Region} {ovr ovd : Region} {l : List Region}
    (h : tryPair rs ovr ovd = some l) :
    collectExts ovr ovd ≠ [] ∧
    l = surgery rs ovr ovd (ovr ∪ unionAll (collectExts ovr ovd)) := by
  unfold tryPair at h
  dsimp only at h
  split_ifs at h with hemp
  refine ⟨fun habs => hemp (by rw [habs]; rfl), ?_⟩
  exact (Option.some.injEq _ _ ▸ h).symm

theorem surgery_props {rs : List Region} {ovr ovd E : Region}
    (hovr : ovr ∈ rs) (hovd : ovd ∈ rs) (hne : ovr ≠ ovd)
    (hEsub : E ⊆ ovd) (hEne : E ≠ ∅) (hdisj : ovr ∩ ovd = ∅) :
    covL (surgery rs ovr ovd (ovr ∪ E)) = covL rs ∧
    (surgery rs ovr ovd (ovr ∪ E)).length = rs.length ∧
    totalSize rs < totalSize (surgery rs ovr ovd (ovr ∪ E)) := by
  have hoi : rs.indexOf ovr < rs.length := List.indexOf_lt_length.mpr hovr
  have hdi : rs.indexOf ovd < rs.length := List.indexOf_lt_length.mpr hovd
  have hgetoi : rs.get ⟨rs.indexOf ovr, hoi⟩ = ovr := List.indexOf_get hoi
  have hgetdi : rs.get ⟨rs.indexOf ovd, hdi⟩ = ovd := List.indexOf_get hdi
  have hoidi : rs.indexOf ovr ≠ rs.indexOf ovd := by
    intro he
    apply hne
    rw [← hgetoi, ← hgetdi]
    congr 1
    exact Fin.ext he
  have hcovsub : ovr ∪ E ⊆ covL rs :=
    Finset.union_subset (subset_covL hovr)
      (subset_trans hEsub (subset_covL hovd))
  have hcard : ovr.card < (ovr ∪ E).card := by
    apply Finset.card_lt_card
    constructor
    · exact Finset.subset_union_left
    · intro habs
      rcases Finset.nonempty_iff_ne_empty.mpr hEne with ⟨x, hx⟩
      have hx1 : x ∈ ovr := habs (Finset.mem_union_right ovr hx)
      have hx2 : x ∈ ovd := hEsub hx
      have : x ∈ ovr ∩ ovd := Finset.mem_inter.mpr ⟨hx1, hx2⟩
      rw [hdisj] at this
      exact Finset.not_mem_empty x this
  unfold surgery
  dsimp only
  split_ifs with hlt
  · -- swap case: the overlapper came first, it moves behind the overlapped
    have hdi2 : rs.indexOf ovd < (rs.set (rs.indexOf ovr) ovd).length := by
      simpa using hdi
    have hmidget : (rs.set (rs.indexOf ovr) ovd).get ⟨rs.indexOf ovd, hdi2⟩ = ovd :=
      (get_set_other rs _ _ ovd hoidi hdi hdi2).trans hgetdi
    have h2 := covL_set (rs.set (rs.indexOf ovr) ovd) (rs.indexOf ovd) (ovr ∪ E) hdi2
    rw [hmidget] at h2
    have h3 := covL_set rs (rs.indexOf ovr) ovd hoi
    rw [hgetoi] at h3
    have hdi3 : rs.indexOf ovd <
        ((rs.set (rs.indexOf ovr) ovd).set (rs.indexOf ovd) (ovr ∪ E)).length := by
      simpa using hdi
    have hoi3 : rs.indexOf ovr <
        ((rs.set (rs.indexOf ovr) ovd).set (rs.indexOf ovd) (ovr ∪ E)).length := by
      simpa using hoi
    have hoi2 : rs.indexOf ovr < (rs.set (rs.indexOf ovr) ovd).length := by
      simpa using hoi
    have hnwmem : ovr ∪ E ∈ (rs.set (rs.indexOf ovr) ovd).set (rs.indexOf ovd) (ovr ∪ E) := by
      have hm := List.get_mem ((rs.set (rs.indexOf ovr) ovd).set (rs.indexOf ovd) (ovr ∪ E))
        (rs.indexOf ovd) hdi3
      rw [get_set_self (rs.set (rs.indexOf ovr) ovd) (rs.indexOf ovd) (ovr ∪ E) hdi3] at hm
      exact hm
    have hovdmem : ovd ∈ (rs.set (rs.indexOf ovr) ovd).set (rs.indexOf ovd) (ovr ∪ E) := by
      have hv : ((rs.set (rs.indexOf ovr) ovd).set (rs.indexOf ovd) (ovr ∪ E)).get
          ⟨rs.indexOf ovr, hoi3⟩ = ovd :=
        (get_set_other _ _ _ (ovr ∪ E) (Ne.symm hoidi) hoi2 hoi3).trans
          (get_set_self rs (rs.indexOf ovr) ovd hoi2)
      have hm := List.get_mem ((rs.set (rs.indexOf ovr) ovd).set (rs.indexOf ovd) (ovr ∪ E))
        (rs.indexOf ovr) hoi3
      rw [hv] at hm
      exact hm
    refine ⟨?_, ?_, ?_⟩
    · have s1 : covL ((rs.set (rs.indexOf ovr) ovd).set (rs.indexOf ovd) (ovr ∪ E)) =
          covL ((rs.set (rs.indexOf ovr) ovd).set (rs.indexOf ovd) (ovr ∪ E)) ∪ ovd :=
        (Finset.union_eq_left.mpr (subset_covL hovdmem)).symm
      rw [s1, h2, ← Finset.union_assoc, h3, Finset.union_assoc]
      apply Finset.union_eq_left.mpr
      exact Finset.union_subset (subset_covL hovd) (subset_trans hEsub (subset_covL hovd))
    · simp
    · have t2 := totalSize_set (rs.set (rs.indexOf ovr) ovd) (rs.indexOf ovd) (ovr ∪ E) hdi2
      rw [hmidget] at t2
      have t3 := totalSize_set rs (rs.indexOf ovr) ovd hoi
      rw [hgetoi] at t3
      omega
  · -- no swap: replace the overlapper in place
    have h1 := covL_set rs (rs.indexOf ovr) (ovr ∪ E) hoi
    rw [hgetoi] at h1
    have hoi3 : rs.indexOf ovr < (rs.set (rs.indexOf ovr) (ovr ∪ E)).length := by
      simpa using hoi
    have hnwmem : ovr ∪ E ∈ rs.set (rs.indexOf ovr) (ovr ∪ E) := by
      have hm := List.get_mem (rs.set (rs.indexOf ovr) (ovr ∪ E)) (rs.indexOf ovr) hoi3
      rw [get_set_self rs (rs.indexOf ovr) (ovr ∪ E) hoi3] at hm
      exact hm
    refine ⟨?_, ?_, ?_⟩
    · have s1 : covL (rs.set (rs.indexOf ovr) (ovr ∪ E)) =
          covL (rs.set (rs.indexOf ovr) (ovr ∪ E)) ∪ ovr :=
        (Finset.union_eq_left.mpr
          (subset_trans Finset.subset_union_left (subset_covL hnwmem))).symm
      rw [s1, h1]
      exact Finset.union_eq_left.mpr hcovsub
    · simp
    · have t1 := totalSize_set rs (rs.indexOf ovr) (ovr ∪ E) hoi
      rw [hgetoi] at t1
      omega

theorem stepPairs_props {rs : List Region} :
    ∀ {ps : List (Region × Region)} {l : List Region},
    (∀ p ∈ ps, p.1 ∈ rs ∧ p.2 ∈ rs) → stepPairs rs ps = some l →
    covL l = covL rs ∧ l.length = rs.length ∧ totalSize rs < totalSize l := by
  intro ps
  induction ps with
  | nil => intro l _ h
           exact absurd h (by simp [stepPairs])
  | cons hd rest ih =>
    intro l hmem h
    rcases hd with ⟨p1, p2⟩
    unfold stepPairs at h
    split_ifs at h with htouch
    · have hp := hmem (p1, p2) (List.mem_cons_self _ _)
      cases ht1 : tryPair rs p1 p2 with
      | some l0 =>
        rw [ht1] at h
        have hl : l = l0 := (Option.some.injEq _ _ ▸ h).symm
        obtain ⟨hne0, hl0⟩ := tryPair_some ht1
        rw [hl, hl0]
        exact surgery_props hp.1 hp.2 (touchesR_ne htouch)
          (unionAll_subset (fun e he => (collectExts_sub e he).2))
          (unionAll_ne_empty hne0 (fun e he => (collectExts_sub e he).1))
          (touchesR_disjoint htouch)
      | none =>
        rw [ht1] at h
        cases ht2 : tryPair rs p2 p1 with
        | some l0 =>
          rw [ht2] at h
          have hl : l = l0 := (Option.some.injEq _ _ ▸ h).symm
          obtain ⟨hne0, hl0⟩ := tryPair_some ht2
          rw [hl, hl0]
          exact surgery_props hp.2 hp.1 (Ne.symm (touchesR_ne htouch))
            (unionAll_subset (fun e he => (collectExts_sub e he).2))
            (unionAll_ne_empty hne0 (fun e he => (collectExts_sub e he).1))
            (by rw [Finset.inter_comm]; exact touchesR_disjoint htouch)
        | none =>
          rw [ht2] at h
          exact ih (fun p hpm => hmem p (List.mem_cons_of_mem _ hpm)) h
    · exact ih (fun p hpm => hmem p (List.mem_cons_of_mem _ hpm)) h

theorem repairStep_props {rs rs1 : List Region} (h : repairStep rs = some rs1) :
    covL rs1 = covL rs ∧ rs1.length = rs.length ∧ totalSize rs < totalSize rs1 :=
  stepPairs_props (fun _ hp => combos_mem hp) h

theorem overlapTouching_poly (m : ℕ) (r : Region) :
    overlapTouching m (.poly r) = some (.poly r) := by
  cases m <;> rfl

theorem overlapTouching_multi_empty (m : ℕ) (rs : List Region)
    (h : isEmptyG (.multi rs) = true) :
    overlapTouching m (.multi rs) = some (.multi rs) := by
  cases m <;> (unfold overlapTouching; rw [if_pos h])

theorem overlapTouching_multi_stuck (m : ℕ) (rs : List Region)
    (h : repairStep rs = none) :
    overlapTouching m (.multi rs) = some (.multi rs) := by
  cases m <;>
    (unfold overlapTouching
     split_ifs with he
     · rfl
     · rw [h])

theorem overlapTouching_fix : ∀ {n : ℕ} {g g1 : Geometry},
    overlapTouching n g = some g1 → ∀ m, overlapTouching m g1 = some g1 := by
  intro n
  induction n with
  | zero =>
    intro g g1 h m
    cases g with
    | poly r =>
      rw [overlapTouching_poly] at h
      have : g1 = .poly r := (Option.some.injEq _ _ ▸ h).symm
      rw [this]
      exact overlapTouching_poly m r
    | multi rs =>
      unfold overlapTouching at h
      split_ifs at h with he
      · have : g1 = .multi rs := (Option.some.injEq _ _ ▸ h).symm
        rw [this]
        exact overlapTouching_multi_empty m rs he
      · cases hr : repairStep rs with
        | none =>
          rw [hr] at h
          have : g1 = .multi rs := (Option.some.injEq _ _ ▸ h).symm
          rw [this]
          exact overlapTouching_multi_stuck m rs hr
        | some rs1 =>
          rw [hr] at h
          exact absurd h (by simp)
  | succ k ih =>
    intro g g1 h m
    cases g with
    | poly r =>
      rw [overlapTouching_poly] at h
      have : g1 = .poly r := (Option.some.injEq _ _ ▸ h).symm
      rw [this]
      exact overlapTouching_poly m r
    | multi rs =>
      unfold overlapTouching at h
      split_ifs at h with he
      · have : g1 = .multi rs := (Option.some.injEq _ _ ▸ h).symm
        rw [this]
        exact overlapTouching_multi_empty m rs he
      · cases hr : repairStep rs with
        | none =>
          rw [hr] at h
          have : g1 = .multi rs := (Option.some.injEq _ _ ▸ h).symm
          rw [this]
          exact overlapTouching_multi_stuck m rs hr
        | some rs1 =>
          rw [hr] at h
          exact ih h m

theorem overlapTouching_cov : ∀ {n : ℕ} {g g1 : Geometry},
    overlapTouching n g = some g1 → covG g1 = covG g := by
  intro n
  induction n with
  | zero =>
    intro g g1 h
    cases g with
    | poly r =>
      rw [overlapTouching_poly] at h
      have hg : g1 = .poly r := (Option.some.injEq _ _ ▸ h).symm
      rw [hg]
    | multi rs =>
      unfold overlapTouching at h
      split_ifs at h with he
      · have hg : g1 = .multi rs := (Option.some.injEq _ _ ▸ h).symm
        rw [hg]
      · cases hr : repairStep rs with
        | none =>
          rw [hr] at h
          have hg : g1 = .multi rs := (Option.some.injEq _ _ ▸ h).symm
          rw [hg]
        | some rs1 =>
          rw [hr] at h
          exact absurd h (by simp)
  | succ k ih =>
    intro g g1 h
    cases g with
    | poly r =>
      rw [overlapTouching_poly] at h
      have hg : g1 = .poly r := (Option.some.injEq _ _ ▸ h).symm
      rw [hg]
    | multi rs =>
      unfold overlapTouching at h
      split_ifs at h with he
      · have hg : g1 = .multi rs := (Option.some.injEq _ _ ▸ h).symm
        rw [hg]
      · cases hr : repairStep rs with
        | none =>
          rw [hr] at h
          have hg : g1 = .multi rs := (Option.some.injEq _ _ ▸ h).symm
          rw [hg]
        | some rs1 =>
          rw [hr] at h
          have h1 := ih h
          rw [h1]
          exact (repairStep_props hr).1

theorem overlapTouching_total : ∀ (n : ℕ) (rs : List Region),
    rs.length * (covL rs).card + 1 - totalSize rs ≤ n →
    overlapTouching n (.multi rs) ≠ none := by
  intro n
  induction n with
  | zero =>
    intro rs hb
    have hle := totalSize_le rs
    have : False := by
      set k := rs.length * (covL rs).card
      omega
    exact this.elim
  | succ k ih =>
    intro rs hb
    unfold overlapTouching
    split_ifs with he
    · simp
    · cases hr : repairStep rs with
      | none => simp
      | some rs1 =>
        obtain ⟨hcov, hlen, hsize⟩ := repairStep_props hr
        apply ih rs1
        rw [hlen, hcov]
        set m := rs.length * (covL rs).card
        omega

theorem covG_unionBoxes (boxes : List Region) (g : Geometry) :
    covG (unionBoxes boxes g) = covL boxes ∪ covG g := by
  unfold unionBoxes
  cases hf : unionBoxesLoop boxes g with
  | poly r =>
    cases hp : pairLoop 0 (Geometry.poly r) with
    | none => exact absurd hp (by simp [pairLoop])
    | some g1 =>
      simp only [hp, Option.getD_some]
      rw [pairLoop_cov 0 _ _ hp, ← hf, covG_unionBoxesLoop]
  | multi rs =>
    cases hp : pairLoop (rs.length + 1) (Geometry.multi rs) with
    | none =>
      exact absurd hp (pairLoop_total (rs.length + 1) rs (by omega))
    | some g1 =>
      simp only [hp, Option.getD_some]
      rw [pairLoop_cov _ _ _ hp, ← hf, covG_unionBoxesLoop]

/-!
## Helper lemma: the scanned boxes cover exactly the set pixels
-/

theorem covL_scanBoxes (g : Grid) : covL (scanBoxes g) = onPixelCells g := by
  have hW : WIDTH = 8 := rfl
  ext c
  rcases c with ⟨a, b⟩
  constructor
  · intro hc
    rcases mem_covL.mp hc with ⟨r, hr, hcr⟩
    unfold scanBoxes at hr
    rcases List.mem_flatMap.mp hr with ⟨y, hy, hr2⟩
    rcases List.mem_filterMap.mp hr2 with ⟨x, hx, hres⟩
    have hx8 : x < WIDTH := List.mem_range.mp hx
    have hyh : y < g.height := List.mem_range.mp hy
    split_ifs at hres with hpix
    have hrr : r = pixelBox x y := (Option.some.injEq _ _ ▸ hres).symm
    subst hrr
    unfold pixelBox boxCells at hcr
    simp only [Finset.mem_product, Finset.mem_Ico] at hcr
    obtain ⟨⟨ha1, ha2⟩, hb1, hb2⟩ := hcr
    have hax : (a / 4).toNat = x := by omega
    have hby : (b / 4).toNat = y := by omega
    unfold onPixelCells boxCells
    simp only [Finset.mem_filter, Finset.mem_product, Finset.mem_Ico]
    refine ⟨⟨⟨by omega, by omega⟩, by omega, by omega⟩, ?_⟩
    show g.pix (a / 4).toNat (b / 4).toNat = true
    rw [hax, hby]
    exact hpix
  · intro hc
    unfold onPixelCells boxCells at hc
    simp only [Finset.mem_filter, Finset.mem_product, Finset.mem_Ico] at hc
    obtain ⟨⟨⟨ha0, ha32⟩, hb0, hb4h⟩, hpix⟩ := hc
    apply mem_covL.mpr
    refine ⟨pixelBox (a / 4).toNat (b / 4).toNat, ?_, ?_⟩
    · unfold scanBoxes
      apply List.mem_flatMap.mpr
      refine ⟨(b / 4).toNat, List.mem_range.mpr (by omega), ?_⟩
      apply List.mem_filterMap.mpr
      refine ⟨(a / 4).toNat, List.mem_range.mpr (by omega), ?_⟩
      rw [if_pos hpix]
    · unfold pixelBox boxCells
      simp only [Finset.mem_product, Finset.mem_Ico]
      refine ⟨⟨by omega, by omega⟩, by omega, by omega⟩

/-!
## Claims about the repair stage and the full pipeline
-/

/-- Counterexample to claim C5: the repair stage does *not* guarantee that
no two members of its result touch without overlapping.  Two boxes that
touch only at a corner admit no valid extension (every candidate leaks
outside the neighbour), so `_overlap_touching` returns them unchanged, and
they still touch without sharing any area. -/
theorem overlapTouching_leaves_touching_pair :
    overlapTouching 1 (.multi [boxA, boxDiag]) = some (.multi [boxA, boxDiag]) ∧
    touchesR boxA boxDiag = true ∧ boxA ∩ boxDiag = ∅ := by
  decide

/-- Claim C5 (amended): the geometry returned by the repair stage is only
terminal in the weaker sense that *no touching pair yields any accepted
extension*: a pair whose candidate extensions all leak outside the
neighbour (e.g. a corner-only touch) may remain touching without
overlapping. -/
theorem overlapTouching_terminal (n : ℕ) (g : Geometry) (rs : List Region)
    (h : overlapTouching n g = some (.multi rs))
    (hne : isEmptyG (.multi rs) = false) :
    repairStep rs = none := by
  have h0 := overlapTouching_fix h 0
  unfold overlapTouching at h0
  rw [if_neg (by simp [hne])] at h0
  cases hr : repairStep rs with
  | none => rfl
  | some rs1 =>
    rw [hr] at h0
    exact absurd h0 (by simp)

/-- Witness for C5 (amended): the corner-touching pair is returned as is,
and indeed no repair step applies to it. -/
theorem overlapTouching_terminal_witness : repairStep [boxA, boxDiag] = none :=
  overlapTouching_terminal 1 (.multi [boxA, boxDiag]) [boxA, boxDiag]
    (by decide) (by decide)

/-- Claim C9: touch-gap repair is idempotent.  Whenever the repair
recursion returns a geometry, re-running it on that geometry returns the
same geometry (with any fuel, since no further step applies). -/
theorem overlapTouching_idempotent (n : ℕ) (g g1 : Geometry)
    (h : overlapTouching n g = some g1) (m : ℕ) :
    overlapTouching m g1 = some g1 :=
  overlapTouching_fix h m

/-- Witness for C9: repairing the already-repaired corner pair is a
no-op. -/
theorem overlapTouching_idempotent_witness :
    overlapTouching 7 (.multi [boxA, boxDiag]) = some (.multi [boxA, boxDiag]) :=
  overlapTouching_idempotent 1 (.multi [boxA, boxDiag])
    (.multi [boxA, boxDiag]) (by decide) 7

/-- Counterexample to claim C6: a successful repair step need not strictly
decrease the member count or the boundary touch count.  Extending `boxA`
into `boxB` (with `boxC` corner-adjacent to both `boxB` and the extension)
keeps the member count at 3 and the touch count at 2: the repaired pair
stops touching, but the extension creates a new touch with `boxC`. -/
theorem repairStep_no_measure_decrease :
    repairStep [boxA, boxB, boxC] = some [boxB, boxA ∪ boxB, boxC] ∧
    ([boxB, boxA ∪ boxB, boxC] : List Region).length =
      ([boxA, boxB, boxC] : List Region).length ∧
    touchCount [boxB, boxA ∪ boxB, boxC] = touchCount [boxA, boxB, boxC] := by
  decide

/-- Claim C6 (amended): both fixpoint iterations terminate on every input,
but with these measures: the pairwise re-union scan because every merge
strictly decreases the member count (fuel `|members| + 1` suffices), and
the repair recursion because every repair step preserves the member count
and the covered area while strictly increasing the total member size,
which is bounded by `|members| * |covered area|` (the touch count may stay
equal or even grow). -/
theorem fixpoint_loops_terminate (rs : List Region) (g : Geometry) :
    pairLoop (rs.length + 1) (.multi rs) ≠ none ∧
    overlapTouching (repairFuel g) g ≠ none := by
  constructor
  · exact pairLoop_total (rs.length + 1) rs (by omega)
  · cases g with
    | poly r =>
      rw [overlapTouching_poly]
      simp
    | multi rs2 =>
      show overlapTouching (rs2.length * (covL rs2).card + 1) (.multi rs2) ≠ none
      exact overlapTouching_total _ rs2 (by omega)

/-- Witness for C6 (amended) at a concrete input: both loops come back
with a result on a one-member geometry and on the empty polygon. -/
theorem fixpoint_loops_terminate_witness :
    pairLoop ([boxA].length + 1) (.multi [boxA]) ≠ none ∧
    overlapTouching (repairFuel (.poly ∅)) (.poly ∅) ≠ none :=
  fixpoint_loops_terminate [boxA] (.poly ∅)

/-- Claim C1: for every character grid, the area covered by the members of
the final geometry of `CharacterOutline` equals exactly the union of the
unit squares of the grid's set pixels: no pixel is added or lost by the
box scan, the union folding, or the touch-gap repair (whose extensions lie
inside other members). -/
theorem characterOutline_coverage (g : Grid) :
    covG (characterOutline g) = onPixelCells g := by
  unfold characterOutline simplifyG
  dsimp only
  cases ho : overlapTouching (repairFuel (unionBoxes (scanBoxes g) (.poly ∅)))
      (unionBoxes (scanBoxes g) (.poly ∅)) with
  | none =>
    simp only [ho, Option.getD_none]
    rw [covG_unionBoxes]
    show covL (scanBoxes g) ∪ ∅ = onPixelCells g
    rw [Finset.union_empty]
    exact covL_scanBoxes g
  | some g1 =>
    simp only [ho, Option.getD_some]
    rw [overlapTouching_cov ho, covG_unionBoxes]
    show covL (scanBoxes g) ∪ ∅ = onPixelCells g
    rw [Finset.union_empty]
    exact covL_scanBoxes g

end Makefont
